import Mathlib

/-!
Verification of the GC task manager core (gcTaskManager.cpp): a doubly
linked task queue with plain FIFO dequeue and an affinity preferring
dequeue that treats barrier tasks as hard stops, together with the
manager bookkeeping protocol (get_task, note_completion, resource
release).  Tasks live in a store mapping task identifiers to task
records; queue operations update the older/newer link fields through the
store exactly as the C++ code updates the corresponding pointers.
Aborting assertions and null dereferences are modelled as Option
failures.
-/

namespace GCTaskModel

/-- Task kinds, from GCTask::Kind. -/
inductive Kind where
  | unknown_task
  | ordinary_task
  | wait_for_barrier_task
  | noop_task
  | idle_task
  deriving DecidableEq

/-- GCTaskManager::sentinel_worker(): (uint) -1, the worker index meaning
no particular worker. -/
def sentinel_worker : Nat := 4294967295

/-- A GC task: kind, affinity hint, gc id, and the two queue link fields
older and newer, none while the task is not on a queue. -/
structure GCTask where
  kind : Kind
  affinity : Nat
  gc_id : Nat
  older : Option Nat
  newer : Option Nat
  deriving DecidableEq

/-- GCTask::initialize: set the kind and gc id, set the affinity to the
sentinel worker, and clear both link fields. -/
def GCTask.init (kind : Kind) (gc_id : Nat) : GCTask :=
  { kind := kind, affinity := sentinel_worker, gc_id := gc_id,
    older := none, newer := none }

/-- GCTask::is_barrier_task(): kind test against wait_for_barrier_task. -/
def GCTask.is_barrier_task (t : GCTask) : Bool :=
  decide (t.kind = Kind.wait_for_barrier_task)

/-- GCTask::is_idle_task(): kind test against idle_task. -/
def GCTask.is_idle_task (t : GCTask) : Bool :=
  decide (t.kind = Kind.idle_task)

abbrev TaskId := Nat

/-- The heap of tasks: every task identifier names a task record. -/
abbrev Store := TaskId → GCTask

/-- task->set_older(v). -/
def setOlder (s : Store) (t : TaskId) (v : Option TaskId) : Store :=
  fun i => if i = t then { s i with older := v } else s i

/-- task->set_newer(v). -/
def setNewer (s : Store) (t : TaskId) (v : Option TaskId) : Store :=
  fun i => if i = t then { s i with newer := v } else s i

/-- GCTaskQueue: the insert end (newest), the remove end (oldest) and the
element count. -/
structure GCTaskQueue where
  insert_end : Option TaskId
  remove_end : Option TaskId
  length : Nat
  deriving DecidableEq

/-- GCTaskQueue::initialize(): both ends null and length zero. -/
def GCTaskQueue.empty : GCTaskQueue :=
  { insert_end := none, remove_end := none, length := 0 }

/-- GCTaskQueue::is_empty(): insert_end == NULL. -/
def GCTaskQueue.is_empty (q : GCTaskQueue) : Bool := q.insert_end.isNone

/-- GCTaskQueue::enqueue(GCTask*): append the task at the insert end. -/
def GCTaskQueue.enqueue (q : GCTaskQueue) (s : Store) (t : TaskId) :
    Store × GCTaskQueue :=
  let s2 := setOlder (setNewer s t none) t q.insert_end
  match q.insert_end with
  | none =>
    (s2, { q with remove_end := some t, insert_end := some t,
                  length := q.length + 1 })
  | some ie =>
    (setNewer s2 ie (some t),
     { q with insert_end := some t, length := q.length + 1 })

/-- GCTaskQueue::remove(): unlink the task at the remove end; none models
the aborting assertion on an empty chain. -/
def GCTaskQueue.remove (q : GCTaskQueue) (s : Store) :
    Option (TaskId × Store × GCTaskQueue) :=
  match q.remove_end with
  | none => none
  | some r =>
    match (s r).newer with
    | none =>
      some (r, setNewer s r none,
        { q with remove_end := none, insert_end := none,
                 length := q.length - 1 })
    | some n =>
      some (r, setNewer (setOlder s n none) r none,
        { q with remove_end := some n, length := q.length - 1 })

/-- GCTaskQueue::remove(GCTask*): unlink a given task from anywhere in the
chain, in the statement order of the source. -/
def GCTaskQueue.removeTask (q : GCTaskQueue) (s : Store) (t : TaskId) :
    TaskId × Store × GCTaskQueue :=
  let p1 : Store × GCTaskQueue :=
    match (s t).newer with
    | some n => (setOlder s n ((s t).older), q)
    | none => (s, { q with insert_end := (s t).older })
  let s1 := p1.1
  let q1 := p1.2
  let p2 : Store × GCTaskQueue :=
    match (s1 t).older with
    | some o => (setNewer s1 o ((s1 t).newer), q1)
    | none => (s1, { q1 with remove_end := (s1 t).newer })
  let s2 := p2.1
  let q2 := p2.2
  (t, setOlder (setNewer s2 t none) t none,
   { q2 with length := q2.length - 1 })

/-- GCTaskQueue::dequeue(): plain dequeue of the oldest element; none models
the aborting assertion on an empty queue. -/
def GCTaskQueue.dequeue (q : GCTaskQueue) (s : Store) :
    Option (TaskId × Store × GCTaskQueue) :=
  if q.is_empty then none else q.remove s

/-- The search loop of GCTaskQueue::dequeue(uint): walk from the remove end
toward the insert end following the newer links; stop with none at a
barrier task or at the end of the chain, stop with the first task whose
affinity matches.  The fuel bounds the walk; on a well formed chain the
queue length is always enough fuel. -/
def findAffinityTask (s : Store) (affinity : Nat) :
    Nat → Option TaskId → Option TaskId
  | _, none => none
  | 0, some _ => none
  | fuel + 1, some e =>
    if (s e).is_barrier_task then none
    else if (s e).affinity = affinity then some e
    else findAffinityTask s affinity fuel ((s e).newer)

/-- GCTaskQueue::dequeue(uint): affinity preferring dequeue, with plain
dequeue as the fallback. -/
def GCTaskQueue.dequeueAffinity (q : GCTaskQueue) (s : Store) (affinity : Nat) :
    Option (TaskId × Store × GCTaskQueue) :=
  if q.is_empty then none
  else
    match findAffinityTask s affinity q.length q.remove_end with
    | some e => some (q.removeTask s e)
    | none => q.remove s

/-- GCTaskQueue::enqueue(GCTaskQueue*): splice the argument list after the
insert end and empty the argument list; none models the null dereference
reachable only on an inconsistent argument list. -/
def GCTaskQueue.enqueueList (q : GCTaskQueue) (s : Store) (list : GCTaskQueue) :
    Option (Store × GCTaskQueue × GCTaskQueue) :=
  if list.is_empty then some (s, q, list)
  else
    if q.is_empty then
      some (s, { q with insert_end := list.insert_end,
                        remove_end := list.remove_end, length := list.length },
            GCTaskQueue.empty)
    else
      match list.remove_end, q.insert_end with
      | some lre, some qie =>
        some (setNewer (setOlder s lre (some qie)) qie (some lre),
          { q with insert_end := list.insert_end,
                   length := q.length + list.length },
          GCTaskQueue.empty)
      | _, _ => none

/-- Repeated plain dequeue, for the FIFO order statements. -/
def drain (fuel : Nat) (q : GCTaskQueue) (s : Store) : List TaskId :=
  match fuel with
  | 0 => []
  | f + 1 =>
    match q.dequeue s with
    | none => []
    | some (t, s2, q2) => t :: drain f q2 s2

/-- GCTaskManager state: the queue and its task store, the bookkeeping
counters, the barrier state, and the per worker resource flags. -/
structure GCTaskManager where
  store : Store
  queue : GCTaskQueue
  busy_workers : Nat
  blocking_worker : Nat
  delivered_tasks : Nat
  completed_tasks : Nat
  barriers : Nat
  emptied_queue : Nat
  resource_flag : Nat → Bool
  workers : Nat
  created_workers : Nat
  noop_task : TaskId

/-- GCTaskManager::is_blocked(): blocking_worker != sentinel_worker. -/
def GCTaskManager.is_blocked (m : GCTaskManager) : Bool :=
  decide (m.blocking_worker ≠ sentinel_worker)

/-- GCTaskManager::should_release_resources(uint): read the flag slot. -/
def GCTaskManager.should_release_resources (m : GCTaskManager) (which : Nat) :
    Bool :=
  m.resource_flag which

/-- GCTaskManager::get_task(uint): none models the worker staying in the
wait loop (and the dequeue failure reachable only on an ill formed
queue); some is the task handed out together with the updated manager.
use_affinity is the UseGCTaskAffinity flag. -/
def GCTaskManager.get_task (m : GCTaskManager) (use_affinity : Bool)
    (which : Nat) : Option (TaskId × GCTaskManager) :=
  if m.is_blocked || (m.queue.is_empty && !(m.should_release_resources which))
  then none
  else
    let step : Option (TaskId × Store × GCTaskQueue × Nat) :=
      if !m.queue.is_empty then
        match (if use_affinity then m.queue.dequeueAffinity m.store which
               else m.queue.dequeue m.store) with
        | none => none
        | some (r, s2, q2) =>
          some (r, s2, q2,
            if (s2 r).is_barrier_task then which else m.blocking_worker)
      else
        some (m.noop_task, m.store, m.queue, m.blocking_worker)
    match step with
    | none => none
    | some (r, s2, q2, bw) =>
      let inc := if (s2 r).is_idle_task then 0 else 1
      some (r, { m with store := s2, queue := q2, blocking_worker := bw,
                        busy_workers := m.busy_workers + inc,
                        delivered_tasks := m.delivered_tasks + inc })

/-- GCTaskManager::decrement_busy_workers(): none models the aborting
assertion when the counter is already zero; some returns the new value
together with the updated manager. -/
def GCTaskManager.decrement_busy_workers (m : GCTaskManager) :
    Option (Nat × GCTaskManager) :=
  if m.busy_workers = 0 then none
  else some (m.busy_workers - 1, { m with busy_workers := m.busy_workers - 1 })

/-- GCTaskManager::note_completion(uint). -/
def GCTaskManager.note_completion (m : GCTaskManager) (which : Nat) :
    Option GCTaskManager :=
  let m1 := if m.blocking_worker = which then
      { m with barriers := m.barriers + 1, blocking_worker := sentinel_worker }
    else m
  let m2 := { m1 with completed_tasks := m1.completed_tasks + 1 }
  match m2.decrement_busy_workers with
  | none => none
  | some (active, m3) =>
    if active == 0 && m3.queue.is_empty then
      some { m3 with emptied_queue := m3.emptied_queue + 1 }
    else some m3

/-- The loop of GCTaskManager::release_all_resources(): set the flag slots
of the indices below n, one at a time. -/
def setTrueBelow (f : Nat → Bool) : Nat → (Nat → Bool)
  | 0 => f
  | n + 1 => fun i => if i = n then true else setTrueBelow f n i

/-- GCTaskManager::release_all_resources(): set the resource flag of every
created worker. -/
def GCTaskManager.release_all_resources (m : GCTaskManager) : GCTaskManager :=
  { m with resource_flag := setTrueBelow m.resource_flag m.created_workers }

/-- GCTaskManager::note_release(uint): the worker clears its own flag. -/
def GCTaskManager.note_release (m : GCTaskManager) (which : Nat) :
    GCTaskManager :=
  { m with resource_flag := fun i => if i = which then false else m.resource_flag i }

/-- The head of a list as an option, with a default for the empty list. -/
def headOr (ts : List TaskId) (d : Option TaskId) : Option TaskId :=
  match ts with
  | [] => d
  | t :: _ => some t

/-- The last element of a list as an option, with a default. -/
def lastOr : List TaskId → Option TaskId → Option TaskId
  | [], d => d
  | t :: rest, _ => lastOr rest (some t)

/-- The doubly linked chain condition for a segment: the older field of
the first element is prev, consecutive elements point at each other, and
the newer field of the last element is nxt. -/
def linksSeg (s : Store) : Option TaskId → List TaskId → Option TaskId → Prop
  | _, [], _ => True
  | prev, t :: rest, nxt =>
    (s t).older = prev ∧ (s t).newer = headOr rest nxt ∧
      linksSeg s (some t) rest nxt

instance linksSegDec (s : Store) :
    ∀ (prev : Option TaskId) (ts : List TaskId) (nxt : Option TaskId),
      Decidable (linksSeg s prev ts nxt)
  | _, [], _ => isTrue trivial
  | _, t :: rest, nxt =>
    @instDecidableAnd _ _ _
      (@instDecidableAnd _ _ _ (linksSegDec s (some t) rest nxt))

/-- The queue q over store s represents the oldest first element list ts:
the ends and the length agree with ts, the elements are distinct, and the
link fields form the doubly linked chain of ts. -/
def represents (q : GCTaskQueue) (s : Store) (ts : List TaskId) : Prop :=
  q.remove_end = headOr ts none ∧ q.insert_end = lastOr ts none ∧
    q.length = ts.length ∧ ts.Nodup ∧ linksSeg s none ts none

instance representsDec (q : GCTaskQueue) (s : Store) (ts : List TaskId) :
    Decidable (represents q s ts) :=
  inferInstanceAs (Decidable (_ = _ ∧ _ = _ ∧ _ = _ ∧ _ ∧ linksSeg s none ts none))

/-- The walk of GCTaskQueue::verify_length(): follow the older links from
the insert end, collecting the visited tasks (newest first). -/
def olderWalk (s : Store) : Nat → Option TaskId → List TaskId
  | 0, _ => []
  | _, none => []
  | fuel + 1, some e => e :: olderWalk s fuel ((s e).older)

/-- The list level version of the affinity search loop. -/
def specFindAffinity (s : Store) (affinity : Nat) : List TaskId → Option TaskId
  | [] => none
  | t :: rest =>
    if (s t).is_barrier_task then none
    else if (s t).affinity = affinity then some t
    else specFindAffinity s affinity rest

theorem setOlder_apply_self (s : Store) (t : TaskId) (v : Option TaskId) :
    setOlder s t v t = { s t with older := v } := by
  simp [setOlder]

theorem setOlder_apply_ne (s : Store) {i t : TaskId} (v : Option TaskId)
    (h : i ≠ t) : setOlder s t v i = s i := by
  simp [setOlder, h]

theorem setNewer_apply_self (s : Store) (t : TaskId) (v : Option TaskId) :
    setNewer s t v t = { s t with newer := v } := by
  simp [setNewer]

theorem setNewer_apply_ne (s : Store) {i t : TaskId} (v : Option TaskId)
    (h : i ≠ t) : setNewer s t v i = s i := by
  simp [setNewer, h]

theorem headOr_append (a b : List TaskId) (d : Option TaskId) :
    headOr (a ++ b) d = headOr a (headOr b d) := by
  cases a <;> simp [headOr]

theorem lastOr_cons (t : TaskId) (rest : List TaskId) (d : Option TaskId) :
    lastOr (t :: rest) d = lastOr rest (some t) := rfl

theorem lastOr_append (a b : List TaskId) (d : Option TaskId) :
    lastOr (a ++ b) d = lastOr b (lastOr a d) := by
  induction a generalizing d with
  | nil => rfl
  | cons x a' ih => simp [lastOr_cons, ih]

theorem lastOr_isSome : ∀ (ts : List TaskId) (d : Option TaskId),
    d.isSome → (lastOr ts d).isSome
  | [], _, h => h
  | t :: rest, _, _ => lastOr_isSome rest (some t) rfl

theorem lastOr_eq_none_iff (ts : List TaskId) :
    lastOr ts none = none ↔ ts = [] := by
  cases ts with
  | nil => simp [lastOr]
  | cons t rest =>
    simp only [lastOr_cons]
    constructor
    · intro h
      have := lastOr_isSome rest (some t) rfl
      rw [h] at this
      simp at this
    · intro h; exact absurd h (by simp)

theorem lastOr_mem : ∀ {ts : List TaskId} {d : Option TaskId} {la : TaskId},
    lastOr ts d = some la → la ∈ ts ∨ d = some la
  | [], _, _, h => Or.inr h
  | t :: rest, _, la, h => by
    rcases @lastOr_mem rest _ _ h with hm | hd
    · exact Or.inl (by simp [hm])
    · exact Or.inl (by simp at hd; simp [hd])

theorem lastOr_irrel {ts : List TaskId} (d d' : Option TaskId) (h : ts ≠ []) :
    lastOr ts d = lastOr ts d' := by
  cases ts with
  | nil => exact absurd rfl h
  | cons t rest => rfl

theorem linksSeg_nil {s : Store} {prev nxt : Option TaskId} :
    linksSeg s prev [] nxt ↔ True := Iff.rfl

theorem linksSeg_cons {s : Store} {prev nxt : Option TaskId} {t : TaskId}
    {rest : List TaskId} :
    linksSeg s prev (t :: rest) nxt ↔
      ((s t).older = prev ∧ (s t).newer = headOr rest nxt ∧
        linksSeg s (some t) rest nxt) := Iff.rfl

theorem linksSeg_congr {s s' : Store} : ∀ {ts : List TaskId}
    {prev nxt : Option TaskId}, (∀ x ∈ ts, s' x = s x) →
    linksSeg s prev ts nxt → linksSeg s' prev ts nxt
  | [], _, _, _, _ => trivial
  | t :: rest, _, _, h, hl => by
    obtain ⟨h1, h2, h3⟩ := hl
    refine ⟨?_, ?_, linksSeg_congr (fun x hx => h x (by simp [hx])) h3⟩
    · rw [h t (by simp)]; exact h1
    · rw [h t (by simp)]; exact h2

theorem linksSeg_append {s : Store} : ∀ {a b : List TaskId}
    {prev nxt : Option TaskId},
    linksSeg s prev (a ++ b) nxt ↔
      (linksSeg s prev a (headOr b nxt) ∧ linksSeg s (lastOr a prev) b nxt) := by
  intro a
  induction a with
  | nil => intro b prev nxt; simp [linksSeg_nil, lastOr, headOr]
  | cons x a' ih =>
    intro b prev nxt
    simp only [List.cons_append, linksSeg_cons, headOr_append, lastOr_cons, ih,
      and_assoc]

theorem linksSeg_set_last_newer {s : Store} : ∀ {ts : List TaskId}
    {la : TaskId} {v nxt prev : Option TaskId},
    ts.Nodup → lastOr ts none = some la → linksSeg s prev ts nxt →
    linksSeg (setNewer s la v) prev ts v := by
  intro ts
  induction ts with
  | nil => intro la v nxt prev _ hla; simp [lastOr] at hla
  | cons x rest ih =>
    intro la v nxt prev hnd hla hl
    obtain ⟨h1, h2, h3⟩ := hl
    cases rest with
    | nil =>
      simp only [lastOr_cons, lastOr] at hla
      obtain rfl : x = la := by injection hla
      exact ⟨by simp [setNewer_apply_self, h1], by simp [setNewer_apply_self, headOr],
        trivial⟩
    | cons y rest' =>
      have hla' : lastOr (y :: rest') none = some la := by
        rw [lastOr_irrel none (some x) (by simp)]
        exact hla
      have hmem : la ∈ y :: rest' := by
        rcases lastOr_mem hla' with hm | hd
        · exact hm
        · simp at hd
      have hxla : x ≠ la := by
        intro hx
        rw [hx] at hnd
        exact (List.nodup_cons.mp hnd).1 hmem
      refine ⟨?_, ?_, ih (List.nodup_cons.mp hnd).2 hla' h3⟩
      · rw [setNewer_apply_ne s v hxla]; exact h1
      · rw [setNewer_apply_ne s v hxla]
        rw [h2]; simp [headOr]

theorem linksSeg_set_head_older {s : Store} {x : TaskId} {rest : List TaskId}
    {p nxt prev : Option TaskId} (hx : x ∉ rest)
    (h : linksSeg s prev (x :: rest) nxt) :
    linksSeg (setOlder s x p) p (x :: rest) nxt := by
  obtain ⟨_, h2, h3⟩ := h
  refine ⟨by simp [setOlder_apply_self], ?_, ?_⟩
  · rw [setOlder_apply_self]; exact h2
  · exact linksSeg_congr
      (fun y hy => setOlder_apply_ne s p (fun hyx => hx (hyx ▸ hy))) h3

theorem findAffinityTask_start_none (s : Store) (aff fuel : Nat) :
    findAffinityTask s aff fuel none = none := by
  cases fuel <;> rfl

theorem findAffinityTask_eq_spec {s : Store} {aff : Nat} :
    ∀ {ts : List TaskId} {prev : Option TaskId} {fuel : Nat},
    linksSeg s prev ts none → ts.length ≤ fuel →
    findAffinityTask s aff fuel (headOr ts none) = specFindAffinity s aff ts := by
  intro ts
  induction ts with
  | nil =>
    intro prev fuel _ _
    simp [headOr, findAffinityTask_start_none, specFindAffinity]
  | cons t rest ih =>
    intro prev fuel hl hf
    obtain ⟨_, h2, h3⟩ := hl
    cases fuel with
    | zero => simp at hf
    | succ f =>
      have hstep : findAffinityTask s aff (f + 1) (some t) =
          if (s t).is_barrier_task then none
          else if (s t).affinity = aff then some t
          else findAffinityTask s aff f ((s t).newer) := rfl
      simp only [headOr, hstep, specFindAffinity]
      cases hb : (s t).is_barrier_task with
      | true => simp
      | false =>
        simp only [Bool.false_eq_true, if_false]
        by_cases ha : (s t).affinity = aff
        · simp [ha]
        · simp only [ha, if_false]
          rw [h2]
          exact ih h3 (by simpa using Nat.le_of_succ_le_succ hf)

theorem specFindAffinity_eq_none {s : Store} {aff : Nat} :
    ∀ {ts : List TaskId}, (∀ x ∈ ts, (s x).affinity ≠ aff) →
    specFindAffinity s aff ts = none := by
  intro ts
  induction ts with
  | nil => intro _; rfl
  | cons t rest ih =>
    intro h
    simp only [specFindAffinity]
    cases hb : (s t).is_barrier_task with
    | true => simp
    | false =>
      simp only [Bool.false_eq_true, if_false, h t (by simp), if_false]
      exact ih (fun x hx => h x (by simp [hx]))

theorem specFindAffinity_barrier_stop {s : Store} {aff : Nat} :
    ∀ {pre : List TaskId} {bt : TaskId} {post : List TaskId},
    (∀ x ∈ pre, (s x).is_barrier_task = false ∧ (s x).affinity ≠ aff) →
    (s bt).is_barrier_task = true →
    specFindAffinity s aff (pre ++ bt :: post) = none := by
  intro pre
  induction pre with
  | nil => intro bt post _ hb; simp [specFindAffinity, hb]
  | cons x pre' ih =>
    intro bt post h hb
    have hx := h x (by simp)
    simp only [List.cons_append, specFindAffinity, hx.1, Bool.false_eq_true,
      if_false, hx.2, if_false]
    exact ih (fun y hy => h y (by simp [hy])) hb

theorem specFindAffinity_match {s : Store} {aff : Nat} :
    ∀ {pre : List TaskId} {e : TaskId} {post : List TaskId},
    (∀ x ∈ pre, (s x).is_barrier_task = false ∧ (s x).affinity ≠ aff) →
    (s e).is_barrier_task = false → (s e).affinity = aff →
    specFindAffinity s aff (pre ++ e :: post) = some e := by
  intro pre
  induction pre with
  | nil =>
    intro e post _ hb ha
    simp [specFindAffinity, hb, ha]
  | cons x pre' ih =>
    intro e post h hb ha
    have hx := h x (by simp)
    simp only [List.cons_append, specFindAffinity, hx.1, Bool.false_eq_true,
      if_false, hx.2, if_false]
    exact ih (fun y hy => h y (by simp [hy])) hb ha

theorem linksSeg_older_consistent {s : Store} : ∀ {ts : List TaskId}
    {prev : Option TaskId}, linksSeg s prev ts none →
    (∀ po, prev = some po → (s po).newer = headOr ts none) →
    ∀ n ∈ ts, ∀ o, (s n).older = some o → (s o).newer = some n := by
  intro ts
  induction ts with
  | nil => intro prev _ _ n hn; simp at hn
  | cons t rest ih =>
    intro prev hl hprev n hn o ho
    obtain ⟨h1, h2, h3⟩ := hl
    rcases List.mem_cons.mp hn with rfl | hn'
    · have hpo : prev = some o := by rw [← h1]; exact ho
      have := hprev o hpo
      simp [headOr] at this
      exact this
    · refine ih h3 ?_ n hn' o ho
      intro po hpo
      have : po = t := by injection hpo.symm
      rw [this, h2]

theorem linksSeg_newer_consistent {s : Store} : ∀ {ts : List TaskId}
    {prev : Option TaskId}, linksSeg s prev ts none →
    ∀ n ∈ ts, ∀ w, (s n).newer = some w → (s w).older = some n := by
  intro ts
  induction ts with
  | nil => intro prev _ n hn; simp at hn
  | cons t rest ih =>
    intro prev hl n hn w hw
    obtain ⟨h1, h2, h3⟩ := hl
    rcases List.mem_cons.mp hn with rfl | hn'
    · cases rest with
      | nil => rw [h2] at hw; simp [headOr] at hw
      | cons y rest' =>
        rw [h2] at hw
        simp [headOr] at hw
        obtain ⟨hy, _, _⟩ := h3
        rw [← hw]; exact hy
    · exact ih h3 n hn' w hw

theorem olderWalk_linksSeg {s : Store} : ∀ {ts : List TaskId}
    {prev nxt : Option TaskId} (k : Nat), linksSeg s prev ts nxt →
    olderWalk s (ts.length + k) (lastOr ts prev) =
      ts.reverse ++ olderWalk s k prev := by
  intro ts
  induction ts with
  | nil => intro prev nxt k _; simp [lastOr]
  | cons t rest ih =>
    intro prev nxt k hl
    obtain ⟨h1, _, h3⟩ := hl
    rw [lastOr_cons]
    have hlen : (t :: rest).length + k = rest.length + (k + 1) := by
      simp [List.length_cons]; omega
    rw [hlen, ih (k + 1) h3]
    have hw : olderWalk s (k + 1) (some t) = t :: olderWalk s k prev := by
      show t :: olderWalk s k ((s t).older) = _
      rw [h1]
    rw [hw]
    simp

theorem represents_is_empty {q : GCTaskQueue} {s : Store} {ts : List TaskId}
    (h : represents q s ts) : q.is_empty = true ↔ ts = [] := by
  obtain ⟨_, h2, _⟩ := h
  simp [GCTaskQueue.is_empty, Option.isNone_iff_eq_none, h2, lastOr_eq_none_iff]

theorem headOr_irrel {ts : List TaskId} (d d' : Option TaskId) (h : ts ≠ []) :
    headOr ts d = headOr ts d' := by
  cases ts with
  | nil => exact absurd rfl h
  | cons t rest => rfl

theorem enqueue_represents {q : GCTaskQueue} {s : Store} {ts : List TaskId}
    {t : TaskId} (h : represents q s ts) (hm : t ∉ ts) :
    represents (q.enqueue s t).2 (q.enqueue s t).1 (ts ++ [t]) ∧
      (∀ x, x ∉ ts → x ≠ t → (q.enqueue s t).1 x = s x) := by
  obtain ⟨hre, hie, hlen, hnd, hlk⟩ := h
  cases hq : q.insert_end with
  | none =>
    have hts : ts = [] := (lastOr_eq_none_iff ts).mp (by rw [← hie, hq])
    subst hts
    simp only [GCTaskQueue.enqueue, hq]
    refine ⟨⟨rfl, rfl, by simp [hlen], by simp, ?_, ?_, trivial⟩, ?_⟩
    · rw [setOlder_apply_self]
    · rw [setOlder_apply_self]
      show (setNewer s t none t).newer = none
      rw [setNewer_apply_self]
    · intro x _ hx
      rw [setOlder_apply_ne _ _ hx, setNewer_apply_ne _ _ hx]
  | some ie =>
    have hts : ts ≠ [] := by
      intro hn
      rw [hn] at hie
      simp [lastOr] at hie
      exact absurd (hq.symm.trans hie) (by simp)
    have hlast : lastOr ts none = some ie := by rw [← hie, hq]
    have hiemem : ie ∈ ts := by
      rcases lastOr_mem hlast with hmem | hd
      · exact hmem
      · simp at hd
    have htie : t ≠ ie := fun he => hm (he ▸ hiemem)
    simp only [GCTaskQueue.enqueue, hq]
    constructor
    · refine ⟨?_, ?_, by simp [hlen], ?_, ?_⟩
      · rw [hre, headOr_append]
        exact headOr_irrel none (headOr [t] none) hts
      · rw [lastOr_append]
        rfl
      · simp only [List.nodup_append]
        exact ⟨hnd, by simp, by intro a ha hat; simp at hat; exact hm (hat ▸ ha)⟩
      · rw [linksSeg_append]
        constructor
        · exact linksSeg_set_last_newer hnd hlast
            (linksSeg_congr
              (fun x hx => by
                have hxt : x ≠ t := fun he => hm (he ▸ hx)
                rw [setOlder_apply_ne _ _ hxt, setNewer_apply_ne _ _ hxt]) hlk)
        · refine ⟨?_, ?_, trivial⟩
          · simp [setNewer_apply_ne _ _ htie, setOlder_apply_self, hlast]
          · simp [setNewer_apply_ne _ _ htie, setOlder_apply_self,
              setNewer_apply_self, headOr]
    · intro x hx hxt
      have hxie : x ≠ ie := fun he => hx (he ▸ hiemem)
      rw [setNewer_apply_ne _ _ hxie, setOlder_apply_ne _ _ hxt,
        setNewer_apply_ne _ _ hxt]

theorem remove_represents {q : GCTaskQueue} {s : Store} {t : TaskId}
    {rest : List TaskId} (h : represents q s (t :: rest)) :
    ∃ s' q', q.remove s = some (t, s', q') ∧ represents q' s' rest ∧
      (s' t).older = none ∧ (s' t).newer = none ∧
      ∀ x, x ∉ t :: rest → s' x = s x := by
  obtain ⟨hre, hie, hlen, hnd, hlk⟩ := h
  obtain ⟨h1, h2, h3⟩ := hlk
  have hre' : q.remove_end = some t := hre
  cases rest with
  | nil =>
    have h2' : (s t).newer = none := h2
    refine ⟨setNewer s t none,
      { q with remove_end := none, insert_end := none, length := q.length - 1 },
      ?_, ?_, ?_, ?_, ?_⟩
    · simp only [GCTaskQueue.remove, hre', h2']
    · exact ⟨rfl, rfl, by simp at hlen ⊢; omega, by simp, trivial⟩
    · rw [setNewer_apply_self]; exact h1
    · rw [setNewer_apply_self]
    · intro x hx
      exact setNewer_apply_ne _ _ (by simp at hx; exact hx)
  | cons n rest' =>
    have h2' : (s t).newer = some n := h2
    have htmem : t ∉ n :: rest' := (List.nodup_cons.mp hnd).1
    have htn : t ≠ n := by
      intro he
      exact htmem (he ▸ List.mem_cons_self n rest')
    have hnr : n ∉ rest' := (List.nodup_cons.mp (List.nodup_cons.mp hnd).2).1
    refine ⟨setNewer (setOlder s n none) t none,
      { q with remove_end := some n, length := q.length - 1 },
      ?_, ⟨rfl, ?_, ?_, (List.nodup_cons.mp hnd).2, ?_⟩, ?_, ?_, ?_⟩
    · simp only [GCTaskQueue.remove, hre', h2']
    · rw [hie, lastOr_cons]
      exact lastOr_irrel (some t) none (by simp)
    · simp only [List.length_cons] at hlen
      simp only [List.length_cons]
      omega
    · refine linksSeg_congr ?_ (linksSeg_set_head_older hnr h3)
      intro x hx
      exact setNewer_apply_ne _ _ (fun he => htmem (he ▸ hx))
    · rw [setNewer_apply_self, setOlder_apply_ne _ _ htn]
      exact h1
    · rw [setNewer_apply_self]
    · intro x hx
      simp only [List.mem_cons, not_or] at hx
      rw [setNewer_apply_ne _ _ hx.1, setOlder_apply_ne _ _ hx.2.1]

theorem dequeue_represents {q : GCTaskQueue} {s : Store} {t : TaskId}
    {rest : List TaskId} (h : represents q s (t :: rest)) :
    ∃ s' q', q.dequeue s = some (t, s', q') ∧ represents q' s' rest ∧
      (s' t).older = none ∧ (s' t).newer = none ∧
      ∀ x, x ∉ t :: rest → s' x = s x := by
  have hne : q.is_empty = false := by
    cases hqe : q.is_empty with
    | true => exact absurd ((represents_is_empty h).mp hqe) (by simp)
    | false => rfl
  obtain ⟨s', q', hrm, hrest⟩ := remove_represents h
  refine ⟨s', q', ?_, hrest⟩
  simp only [GCTaskQueue.dequeue, hne, Bool.false_eq_true, if_false]
  exact hrm

theorem removeTask_represents {q : GCTaskQueue} {s : Store} {a : List TaskId}
    {t : TaskId} {b : List TaskId} (h : represents q s (a ++ t :: b)) :
    ∃ s' q', q.removeTask s t = (t, s', q') ∧ represents q' s' (a ++ b) ∧
      (s' t).older = none ∧ (s' t).newer = none ∧
      ∀ x, x ∉ a ++ t :: b → s' x = s x := by
  obtain ⟨hre, hie, hlen, hnd, hlk⟩ := h
  rw [linksSeg_append] at hlk
  obtain ⟨ha_seg, hto, htn, hb_seg⟩ :
      linksSeg s none a (some t) ∧ (s t).older = lastOr a none ∧
        (s t).newer = headOr b none ∧ linksSeg s (some t) b none := by
    obtain ⟨h1, h2⟩ := hlk
    exact ⟨h1, h2.1, h2.2.1, h2.2.2⟩
  rw [List.nodup_append] at hnd
  obtain ⟨hnda, hndtb, hdisj⟩ := hnd
  have hta : t ∉ a := fun hx => hdisj hx (by simp)
  have htb' : t ∉ b := (List.nodup_cons.mp hndtb).1
  have hndb : b.Nodup := (List.nodup_cons.mp hndtb).2
  cases b with
  | nil =>
    have htn' : (s t).newer = none := htn
    cases a with
    | nil =>
      have hto' : (s t).older = none := hto
      refine ⟨setOlder (setNewer s t none) t none,
        { insert_end := none, remove_end := none, length := q.length - 1 },
        ?_, ?_, ?_, ?_, ?_⟩
      · simp only [GCTaskQueue.removeTask, htn', hto']
      · exact ⟨rfl, rfl, by simp at hlen ⊢; omega, by simp, trivial⟩
      · rw [setOlder_apply_self]
      · rw [setOlder_apply_self]
        show (setNewer s t none t).newer = none
        rw [setNewer_apply_self]
      · intro x hx
        have hxt : x ≠ t := by simp at hx; exact hx
        rw [setOlder_apply_ne _ _ hxt, setNewer_apply_ne _ _ hxt]
    | cons x a' =>
      obtain ⟨la, hla⟩ : ∃ la, lastOr (x :: a') none = some la := by
        cases hl0 : lastOr (x :: a') none with
        | none => exact absurd ((lastOr_eq_none_iff _).mp hl0) (by simp)
        | some la => exact ⟨la, rfl⟩
      have hto' : (s t).older = some la := by rw [hto, hla]
      have hlamem : la ∈ x :: a' := by
        rcases lastOr_mem hla with hm | hd
        · exact hm
        · simp at hd
      have htla : t ≠ la := fun he => hta (he ▸ hlamem)
      refine ⟨setOlder (setNewer (setNewer s la none) t none) t none,
        { q with insert_end := some la, length := q.length - 1 },
        ?_, ?_, ?_, ?_, ?_⟩
      · simp only [GCTaskQueue.removeTask, htn', hto']
      · refine ⟨?_, ?_, ?_, by simpa using hnda, ?_⟩
        · rw [hre]
          simp only [List.append_nil, List.cons_append]
          rfl
        · simp only [List.append_nil]
          exact hla.symm
        · simp only [List.append_nil]
          simp at hlen ⊢
          omega
        · simp only [List.append_nil]
          refine linksSeg_congr ?_ (linksSeg_set_last_newer hnda hla ha_seg)
          intro y hy
          have hyt : y ≠ t := fun he => hta (he ▸ hy)
          rw [setOlder_apply_ne _ _ hyt, setNewer_apply_ne _ _ hyt]
      · rw [setOlder_apply_self]
      · rw [setOlder_apply_self]
        show (setNewer (setNewer s la none) t none t).newer = none
        rw [setNewer_apply_self]
      · intro y hy
        have hy1 : y ∉ x :: a' := fun hc =>
          hy (List.mem_append.mpr (Or.inl hc))
        have hy2 : y ≠ t := fun he =>
          hy (List.mem_append.mpr (Or.inr (by simp [he])))
        have hyla : y ≠ la := fun he => hy1 (he ▸ hlamem)
        rw [setOlder_apply_ne _ _ hy2, setNewer_apply_ne _ _ hy2,
          setNewer_apply_ne _ _ hyla]
  | cons n b' =>
    have htn' : (s t).newer = some n := htn
    have htn2 : t ≠ n := fun he => htb' (he ▸ List.mem_cons_self n b')
    have hnb' : n ∉ b' := (List.nodup_cons.mp hndb).1
    cases a with
    | nil =>
      have hto' : (s t).older = none := hto
      refine ⟨setOlder (setNewer (setOlder s n none) t none) t none,
        { q with remove_end := some n, length := q.length - 1 },
        ?_, ?_, ?_, ?_, ?_⟩
      · simp only [GCTaskQueue.removeTask, htn', setOlder_apply_ne s none htn2,
          hto']
      · refine ⟨rfl, ?_, ?_, hndb, ?_⟩
        · rw [hie]
          simp only [List.nil_append, lastOr_cons]
        · simp at hlen ⊢
          omega
        · simp only [List.nil_append]
          refine linksSeg_congr ?_ (linksSeg_set_head_older hnb' hb_seg)
          intro y hy
          have hyt : y ≠ t := fun he => htb' (he ▸ hy)
          rw [setOlder_apply_ne _ _ hyt, setNewer_apply_ne _ _ hyt]
      · rw [setOlder_apply_self]
      · rw [setOlder_apply_self]
        show (setNewer (setOlder s n none) t none t).newer = none
        rw [setNewer_apply_self]
      · intro y hy
        simp only [List.nil_append, List.mem_cons, not_or] at hy
        obtain ⟨hy1, hy2, hy3⟩ := hy
        rw [setOlder_apply_ne _ _ hy1, setNewer_apply_ne _ _ hy1,
          setOlder_apply_ne _ _ hy2]
    | cons x a' =>
      obtain ⟨la, hla⟩ : ∃ la, lastOr (x :: a') none = some la := by
        cases hl0 : lastOr (x :: a') none with
        | none => exact absurd ((lastOr_eq_none_iff _).mp hl0) (by simp)
        | some la => exact ⟨la, rfl⟩
      have hto' : (s t).older = some la := by rw [hto, hla]
      have hlamem : la ∈ x :: a' := by
        rcases lastOr_mem hla with hm | hd
        · exact hm
        · simp at hd
      have htla : t ≠ la := fun he => hta (he ▸ hlamem)
      have hna : n ∉ x :: a' := fun hx => hdisj hx (by simp)
      have hlanb : la ∉ n :: b' := fun hx =>
        hdisj hlamem (List.mem_cons_of_mem t hx)
      have hlan : la ≠ n := fun he => hlanb (he ▸ List.mem_cons_self n b')
      refine ⟨setOlder (setNewer (setNewer (setOlder s n (some la)) la (some n))
          t none) t none,
        { q with length := q.length - 1 }, ?_, ?_, ?_, ?_, ?_⟩
      · simp only [GCTaskQueue.removeTask, htn',
          setOlder_apply_ne s (some la) htn2, hto']
      · refine ⟨?_, ?_, ?_, ?_, ?_⟩
        · rw [hre]
          simp only [List.cons_append]
          rfl
        · have e1 : q.insert_end = lastOr (n :: b') none := by
            rw [hie, lastOr_append, lastOr_cons]
            exact lastOr_irrel (some t) none (by simp)
          rw [e1, lastOr_append]
          exact lastOr_irrel none (lastOr (x :: a') none) (by simp)
        · simp at hlen ⊢
          omega
        · rw [List.nodup_append]
          refine ⟨hnda, hndb, ?_⟩
          intro y hy hc
          exact hdisj hy (List.mem_cons_of_mem t hc)
        · rw [linksSeg_append]
          constructor
          · show linksSeg _ none (x :: a') (headOr (n :: b') none)
            have hseg2 : linksSeg (setOlder s n (some la)) none (x :: a')
                (some t) := by
              refine linksSeg_congr ?_ ha_seg
              intro y hy
              exact setOlder_apply_ne _ _ (fun he => hna (he ▸ hy))
            have hseg3 := linksSeg_set_last_newer (v := some n) hnda hla hseg2
            refine linksSeg_congr ?_ hseg3
            intro y hy
            have hyt : y ≠ t := fun he => hta (he ▸ hy)
            rw [setOlder_apply_ne _ _ hyt, setNewer_apply_ne _ _ hyt]
          · rw [hla]
            have hseg2 : linksSeg (setOlder s n (some la)) (some la) (n :: b')
                none := linksSeg_set_head_older hnb' hb_seg
            have hseg3 : linksSeg (setNewer (setOlder s n (some la)) la
                (some n)) (some la) (n :: b') none := by
              refine linksSeg_congr ?_ hseg2
              intro y hy
              exact setNewer_apply_ne _ _ (fun he => hlanb (he ▸ hy))
            refine linksSeg_congr ?_ hseg3
            intro y hy
            have hyt : y ≠ t := fun he => htb' (he ▸ hy)
            rw [setOlder_apply_ne _ _ hyt, setNewer_apply_ne _ _ hyt]
      · rw [setOlder_apply_self]
      · rw [setOlder_apply_self]
        show (setNewer (setNewer (setOlder s n (some la)) la (some n)) t none
          t).newer = none
        rw [setNewer_apply_self]
      · intro y hy
        have hy1 : y ∉ x :: a' := fun hc =>
          hy (List.mem_append.mpr (Or.inl hc))
        have hy2 : y ≠ t := fun he =>
          hy (List.mem_append.mpr (Or.inr (by simp [he])))
        have hy3 : y ≠ n := fun he =>
          hy (List.mem_append.mpr (Or.inr (by simp [he])))
        have hyla : y ≠ la := fun he => hy1 (he ▸ hlamem)
        rw [setOlder_apply_ne _ _ hy2, setNewer_apply_ne _ _ hy2,
          setNewer_apply_ne _ _ hyla, setOlder_apply_ne _ _ hy3]

theorem enqueueList_represents {q l : GCTaskQueue} {s : Store}
    {ts us : List TaskId} (hq : represents q s ts) (hl : represents l s us)
    (hd : ∀ x ∈ ts, x ∉ us) :
    (us = [] → q.enqueueList s l = some (s, q, l)) ∧
    (us ≠ [] → ∃ s' q', q.enqueueList s l = some (s', q', GCTaskQueue.empty) ∧
      represents q' s' (ts ++ us) ∧ ∀ x, x ∉ ts → x ∉ us → s' x = s x) := by
  constructor
  · intro h0
    have hle : l.is_empty = true := (represents_is_empty hl).mpr h0
    simp only [GCTaskQueue.enqueueList, hle, if_true]
  · intro hus
    have hle : l.is_empty = false := by
      cases h : l.is_empty with
      | true => exact absurd ((represents_is_empty hl).mp h) hus
      | false => rfl
    obtain ⟨hlre, hlie, hllen, hlnd, hllk⟩ := hl
    by_cases hts : ts = []
    · subst hts
      have hqe : q.is_empty = true := (represents_is_empty hq).mpr rfl
      refine ⟨s, { q with insert_end := l.insert_end,
                          remove_end := l.remove_end, length := l.length },
        ?_, ?_, fun x _ _ => rfl⟩
      · simp only [GCTaskQueue.enqueueList, hle, hqe, Bool.false_eq_true,
          if_false, if_true]
      · exact ⟨hlre, hlie, hllen, by simpa using hlnd, by simpa using hllk⟩
    · obtain ⟨hqre, hqie, hqlen, hqnd, hqlk⟩ := hq
      have hqe : q.is_empty = false := by
        cases h : q.is_empty with
        | true =>
          exact absurd ((represents_is_empty ⟨hqre, hqie, hqlen, hqnd, hqlk⟩).mp
            h) hts
        | false => rfl
      cases us with
      | nil => exact absurd rfl hus
      | cons u us' =>
        obtain ⟨qie, hqie'⟩ : ∃ qie, q.insert_end = some qie := by
          cases h0 : q.insert_end with
          | none =>
            rw [hqie] at h0
            exact absurd ((lastOr_eq_none_iff ts).mp h0) hts
          | some qie => exact ⟨qie, rfl⟩
        have hlre' : l.remove_end = some u := hlre
        have hla : lastOr ts none = some qie := by rw [← hqie, hqie']
        have hqiemem : qie ∈ ts := by
          rcases lastOr_mem hla with hm | h0
          · exact hm
          · simp at h0
        have hqienus : qie ∉ u :: us' := hd qie hqiemem
        have humem : u ∈ u :: us' := List.mem_cons_self u us'
        have hunts : u ∉ ts := fun hc => hd u hc humem
        have huus' : u ∉ us' := (List.nodup_cons.mp hlnd).1
        refine ⟨setNewer (setOlder s u (some qie)) qie (some u),
          { q with insert_end := l.insert_end,
                   length := q.length + l.length }, ?_, ?_, ?_⟩
        · simp only [GCTaskQueue.enqueueList, hle, hqe, Bool.false_eq_true,
            if_false, hlre', hqie']
        · refine ⟨?_, ?_, ?_, ?_, ?_⟩
          · rw [hqre, headOr_append]
            exact headOr_irrel none (headOr (u :: us') none) hts
          · show l.insert_end = lastOr (ts ++ u :: us') none
            rw [hlie, lastOr_append]
            exact lastOr_irrel none (lastOr ts none) (by simp)
          · simp only [List.length_append]
            omega
          · rw [List.nodup_append]
            exact ⟨hqnd, hlnd, fun y hy hc => hd y hy hc⟩
          · rw [linksSeg_append]
            constructor
            · show linksSeg _ none ts (headOr (u :: us') none)
              have hseg2 : linksSeg (setOlder s u (some qie)) none ts none := by
                refine linksSeg_congr ?_ hqlk
                intro y hy
                exact setOlder_apply_ne _ _ (fun he => hunts (he ▸ hy))
              exact linksSeg_set_last_newer hqnd hla hseg2
            · rw [hla]
              have hseg2 : linksSeg (setOlder s u (some qie)) (some qie)
                  (u :: us') none := linksSeg_set_head_older huus' hllk
              refine linksSeg_congr ?_ hseg2
              intro y hy
              exact setNewer_apply_ne _ _ (fun he => hqienus (he ▸ hy))
        · intro x hx1 hx2
          have hxqie : x ≠ qie := fun he => hx1 (he ▸ hqiemem)
          have hxu : x ≠ u := fun he => hx2 (he ▸ humem)
          rw [setNewer_apply_ne _ _ hxqie, setOlder_apply_ne _ _ hxu]

theorem drain_represents : ∀ {ts : List TaskId} {q : GCTaskQueue} {s : Store},
    represents q s ts → drain ts.length q s = ts := by
  intro ts
  induction ts with
  | nil => intro q s _; rfl
  | cons t rest ih =>
    intro q s h
    obtain ⟨s', q', hdq, hrep, _⟩ := dequeue_represents h
    simp only [List.length_cons, drain, hdq]
    rw [ih hrep]

theorem headOr_eq_none_iff (ts : List TaskId) :
    headOr ts none = none ↔ ts = [] := by
  cases ts <;> simp [headOr]

theorem dequeueAffinity_eq_spec {q : GCTaskQueue} {s : Store}
    {ts : List TaskId} {aff : Nat} (h : represents q s ts) (hts : ts ≠ []) :
    q.dequeueAffinity s aff =
      match specFindAffinity s aff ts with
      | some e => some (q.removeTask s e)
      | none => q.remove s := by
  have hne : q.is_empty = false := by
    cases hqe : q.is_empty with
    | true => exact absurd ((represents_is_empty h).mp hqe) hts
    | false => rfl
  obtain ⟨h1, _, h3, _, h5⟩ := h
  simp only [GCTaskQueue.dequeueAffinity, hne, Bool.false_eq_true, if_false,
    h1, h3]
  rw [findAffinityTask_eq_spec h5 (Nat.le_refl _)]

theorem specFindAffinity_split {s : Store} {aff : Nat} : ∀ {ts : List TaskId}
    {e : TaskId}, specFindAffinity s aff ts = some e →
    ∃ pre post, ts = pre ++ e :: post ∧
      (∀ x ∈ pre, (s x).is_barrier_task = false ∧ (s x).affinity ≠ aff) ∧
      (s e).is_barrier_task = false ∧ (s e).affinity = aff := by
  intro ts
  induction ts with
  | nil => intro e he; simp [specFindAffinity] at he
  | cons t rest ih =>
    intro e he
    simp only [specFindAffinity] at he
    cases hb : (s t).is_barrier_task with
    | true => rw [hb] at he; simp at he
    | false =>
      rw [hb] at he
      simp only [Bool.false_eq_true, if_false] at he
      by_cases ha : (s t).affinity = aff
      · rw [if_pos ha] at he
        obtain rfl : t = e := by injection he
        exact ⟨[], rest, rfl, by simp, hb, ha⟩
      · rw [if_neg ha] at he
        obtain ⟨pre, post, hsplit, hpre, hbe, hae⟩ := ih he
        refine ⟨t :: pre, post, by rw [hsplit]; rfl, ?_, hbe, hae⟩
        intro x hx
        rcases List.mem_cons.mp hx with rfl | hx'
        · exact ⟨hb, ha⟩
        · exact hpre x hx'

theorem linksSeg_last_newer {s : Store} : ∀ {ts : List TaskId}
    {prev : Option TaskId} {ie : TaskId}, linksSeg s prev ts none →
    lastOr ts none = some ie → (s ie).newer = none := by
  intro ts
  induction ts with
  | nil => intro prev ie _ hla; simp [lastOr] at hla
  | cons t rest ih =>
    intro prev ie hl hla
    obtain ⟨_, h2, h3⟩ := hl
    cases rest with
    | nil =>
      obtain rfl : t = ie := by
        simp only [lastOr_cons, lastOr] at hla
        injection hla
      exact h2
    | cons y rest' =>
      refine ih h3 ?_
      rw [lastOr_irrel none (some t) (by simp)]
      exact hla

theorem represents_invariant {q : GCTaskQueue} {s : Store} {ts : List TaskId}
    (h : represents q s ts) :
    ((q.length = 0 ↔ q.insert_end = none) ∧
      (q.insert_end = none ↔ q.remove_end = none))
    ∧ (∀ r, q.remove_end = some r → (s r).older = none)
    ∧ (∀ ie, q.insert_end = some ie → (s ie).newer = none)
    ∧ (∀ n ∈ ts, ∀ o, (s n).older = some o → (s o).newer = some n)
    ∧ (∀ n ∈ ts, ∀ w, (s n).newer = some w → (s w).older = some n)
    ∧ olderWalk s (q.length + 1) q.insert_end = ts.reverse := by
  obtain ⟨h1, h2, h3, _, h5⟩ := h
  refine ⟨⟨?_, ?_⟩, ?_, ?_, ?_, ?_, ?_⟩
  · rw [h3, h2, List.length_eq_zero, lastOr_eq_none_iff]
  · rw [h2, h1, lastOr_eq_none_iff, headOr_eq_none_iff]
  · intro r hr
    rw [h1] at hr
    cases ts with
    | nil => simp [headOr] at hr
    | cons t rest =>
      obtain rfl : t = r := by simp only [headOr] at hr; injection hr
      exact h5.1
  · intro ie hie
    rw [h2] at hie
    exact linksSeg_last_newer h5 hie
  · exact linksSeg_older_consistent h5 (fun po hpo => by simp at hpo)
  · exact linksSeg_newer_consistent h5
  · rw [h3, h2]
    have := olderWalk_linksSeg (s := s) (k := 1) h5
    rw [this]
    simp [olderWalk]

theorem get_task_eq_wait (ua : Bool) {m : GCTaskManager} {which : Nat}
    (hc : (m.is_blocked ||
      (m.queue.is_empty && !(m.should_release_resources which))) = true) :
    m.get_task ua which = none := by
  simp only [GCTaskManager.get_task, hc, if_true]

theorem get_task_eq_some {m : GCTaskManager} {ua : Bool} {which : Nat}
    {r0 : TaskId} {s0 : Store} {q0 : GCTaskQueue}
    (hc : (m.is_blocked ||
      (m.queue.is_empty && !(m.should_release_resources which))) = false)
    (he : m.queue.is_empty = false)
    (hdeq : (if ua then m.queue.dequeueAffinity m.store which
             else m.queue.dequeue m.store) = some (r0, s0, q0)) :
    m.get_task ua which = some (r0,
      { m with store := s0, queue := q0,
               blocking_worker :=
                 if (s0 r0).is_barrier_task then which else m.blocking_worker,
               busy_workers := m.busy_workers +
                 (if (s0 r0).is_idle_task then 0 else 1),
               delivered_tasks := m.delivered_tasks +
                 (if (s0 r0).is_idle_task then 0 else 1) }) := by
  simp only [GCTaskManager.get_task, hc, Bool.false_eq_true, if_false]
  simp only [he, Bool.not_false, if_true, hdeq]

theorem get_task_eq_noop (ua : Bool) {m : GCTaskManager} {which : Nat}
    (hc : (m.is_blocked ||
      (m.queue.is_empty && !(m.should_release_resources which))) = false)
    (he : m.queue.is_empty = true) :
    m.get_task ua which = some (m.noop_task,
      { m with store := m.store, queue := m.queue,
               blocking_worker := m.blocking_worker,
               busy_workers := m.busy_workers +
                 (if (m.store m.noop_task).is_idle_task then 0 else 1),
               delivered_tasks := m.delivered_tasks +
                 (if (m.store m.noop_task).is_idle_task then 0 else 1) }) := by
  simp only [GCTaskManager.get_task, hc, Bool.false_eq_true, if_false]
  simp only [he, Bool.not_true, Bool.false_eq_true, if_false]

theorem dequeue_total (ua : Bool) (aff : Nat) {q : GCTaskQueue} {s : Store}
    {ts : List TaskId} (h : represents q s ts) (hts : ts ≠ []) :
    ∃ r0 s0 q0, (if ua then q.dequeueAffinity s aff else q.dequeue s) =
      some (r0, s0, q0) := by
  cases ua with
  | false =>
    cases ts with
    | nil => exact absurd rfl hts
    | cons t rest =>
      obtain ⟨s', q', hdq, _⟩ := dequeue_represents h
      exact ⟨t, s', q', by simpa using hdq⟩
  | true =>
    rw [if_pos rfl]
    rw [dequeueAffinity_eq_spec h hts]
    cases hf : specFindAffinity s aff ts with
    | some e =>
      obtain ⟨pre, post, hsplit, _⟩ := specFindAffinity_split hf
      subst hsplit
      obtain ⟨s', q', heq, _⟩ := removeTask_represents h
      refine ⟨e, s', q', ?_⟩
      show some (q.removeTask s e) = some (e, s', q')
      rw [heq]
    | none =>
      cases ts with
      | nil => exact absurd rfl hts
      | cons t rest =>
        obtain ⟨s', q', hdq, _⟩ := remove_represents h
        exact ⟨t, s', q', hdq⟩

/-- Claim C1: get_task(which) waits (modelled as returning none) exactly while
blocking_worker is not the sentinel or the queue is empty with the worker's
resource flag clear.  On a successful exit, when the queue is non-empty the
returned task is the result of the affinity dequeue with affinity `which`
iff affinity dispatch is enabled (else the plain dequeue), and
blocking_worker becomes `which` iff the dequeued task is a barrier task;
when the queue is empty the shared noop task is returned with queue, store
and blocking_worker unchanged.  busy_workers and delivered_tasks are
incremented iff the returned task is not an idle task, and no other
counter changes. -/
theorem get_task_spec (m : GCTaskManager) (ua : Bool) (which : Nat)
    (ts : List TaskId) (h : represents m.queue m.store ts) :
    (m.get_task ua which = none ↔
      (m.is_blocked = true ∨
        (m.queue.is_empty = true ∧ m.resource_flag which = false)))
    ∧ ∀ r m2, m.get_task ua which = some (r, m2) →
        (m.queue.is_empty = false →
          (if ua then m.queue.dequeueAffinity m.store which
           else m.queue.dequeue m.store) = some (r, m2.store, m2.queue) ∧
          m2.blocking_worker =
            (if (m2.store r).is_barrier_task then which
             else m.blocking_worker))
        ∧ (m.queue.is_empty = true →
            r = m.noop_task ∧ m2.store = m.store ∧ m2.queue = m.queue ∧
              m2.blocking_worker = m.blocking_worker)
        ∧ m2.busy_workers = m.busy_workers +
            (if (m2.store r).is_idle_task then 0 else 1)
        ∧ m2.delivered_tasks = m.delivered_tasks +
            (if (m2.store r).is_idle_task then 0 else 1)
        ∧ m2.completed_tasks = m.completed_tasks ∧ m2.barriers = m.barriers
        ∧ m2.emptied_queue = m.emptied_queue
        ∧ m2.resource_flag = m.resource_flag
        ∧ m2.noop_task = m.noop_task := by
  by_cases hc : (m.is_blocked ||
      (m.queue.is_empty && !(m.should_release_resources which))) = true
  · have hg := get_task_eq_wait ua hc
    constructor
    · rw [hg]
      simp only [GCTaskManager.should_release_resources, Bool.or_eq_true,
        Bool.and_eq_true, Bool.not_eq_true'] at hc
      simp [hc]
    · intro r m2 hr
      rw [hg] at hr
      exact absurd hr (by simp)
  · have hc' : (m.is_blocked ||
        (m.queue.is_empty && !(m.should_release_resources which))) = false :=
      Bool.eq_false_iff.mpr hc
    have hblocked : m.is_blocked = false := by
      cases h0 : m.is_blocked with
      | true => rw [h0] at hc'; simp at hc'
      | false => rfl
    cases he : m.queue.is_empty with
    | false =>
      have hts : ts ≠ [] := by
        intro h0
        have := (represents_is_empty h).mpr h0
        rw [he] at this
        exact Bool.false_ne_true this
      obtain ⟨r0, s0, q0, hdeq⟩ :=
        dequeue_total ua which h hts
      have hg := get_task_eq_some hc' he hdeq
      constructor
      · rw [hg]
        simp [hblocked, he]
      · intro r m2 hr
        rw [hg] at hr
        injection hr with hpair
        injection hpair with h1 h2
        subst h1
        subst h2
        exact ⟨fun _ => ⟨hdeq, rfl⟩, fun h0 => absurd h0 (by simp [he]), rfl,
          rfl, rfl, rfl, rfl, rfl, rfl⟩
    | true =>
      have hg := get_task_eq_noop ua hc' he
      constructor
      · rw [hg]
        have hflag : m.resource_flag which = true := by
          cases h0 : m.resource_flag which with
          | true => rfl
          | false =>
            rw [Bool.or_eq_false_iff] at hc'
            have := hc'.2
            rw [he] at this
            simp [GCTaskManager.should_release_resources, h0] at this
        simp [hblocked, hflag]
      · intro r m2 hr
        rw [hg] at hr
        injection hr with hpair
        injection hpair with h1 h2
        subst h1
        subst h2
        exact ⟨fun h0 => absurd h0 (by simp [he]), fun _ => ⟨rfl, rfl, rfl,
          rfl⟩, rfl, rfl, rfl, rfl, rfl, rfl, rfl⟩

theorem busy_and_empty_false {m : GCTaskManager}
    (hq : ¬(m.busy_workers - 1 = 0 ∧ m.queue.is_empty = true)) :
    ((m.busy_workers - 1 == 0) && m.queue.is_empty) = false := by
  cases hb1 : (m.busy_workers - 1 == 0) with
  | false => simp
  | true =>
    cases hb2 : m.queue.is_empty with
    | false => simp
    | true => exact absurd ⟨by simpa using hb1, hb2⟩ hq

/-- Claim C2: note_completion(which) increments barriers and resets
blocking_worker to the sentinel exactly when blocking_worker = which, then
increments completed_tasks, decrements busy_workers, and increments
emptied_queue exactly when the decremented busy_workers is zero and the
queue is empty; no other manager state changes.  The hypothesis is the
assertion precondition of decrement_busy_workers. -/
theorem note_completion_spec (m : GCTaskManager) (which : Nat)
    (h : 0 < m.busy_workers) :
    ∃ m2, m.note_completion which = some m2 ∧
      (m.blocking_worker = which →
        m2.barriers = m.barriers + 1 ∧ m2.blocking_worker = sentinel_worker) ∧
      (m.blocking_worker ≠ which →
        m2.barriers = m.barriers ∧ m2.blocking_worker = m.blocking_worker) ∧
      m2.completed_tasks = m.completed_tasks + 1 ∧
      m2.busy_workers = m.busy_workers - 1 ∧
      m2.emptied_queue = (if m.busy_workers - 1 = 0 ∧ m.queue.is_empty = true
        then m.emptied_queue + 1 else m.emptied_queue) ∧
      m2.delivered_tasks = m.delivered_tasks ∧ m2.store = m.store ∧
      m2.queue = m.queue ∧ m2.resource_flag = m.resource_flag ∧
      m2.workers = m.workers ∧ m2.created_workers = m.created_workers ∧
      m2.noop_task = m.noop_task := by
  have h0 : ¬ m.busy_workers = 0 := by omega
  by_cases hbw : m.blocking_worker = which
  · by_cases hq : (m.busy_workers - 1 = 0 ∧ m.queue.is_empty = true)
    · refine ⟨{ m with blocking_worker := sentinel_worker,
                       busy_workers := m.busy_workers - 1,
                       completed_tasks := m.completed_tasks + 1,
                       barriers := m.barriers + 1,
                       emptied_queue := m.emptied_queue + 1 },
        ?_, fun _ => ⟨rfl, rfl⟩, fun hc => absurd hbw hc, rfl, rfl,
        by rw [if_pos hq], rfl, rfl, rfl, rfl, rfl, rfl, rfl⟩
      simp [GCTaskManager.note_completion,
        GCTaskManager.decrement_busy_workers, hbw, h0, hq.1, hq.2]
    · refine ⟨{ m with blocking_worker := sentinel_worker,
                       busy_workers := m.busy_workers - 1,
                       completed_tasks := m.completed_tasks + 1,
                       barriers := m.barriers + 1 },
        ?_, fun _ => ⟨rfl, rfl⟩, fun hc => absurd hbw hc, rfl, rfl,
        by rw [if_neg hq], rfl, rfl, rfl, rfl, rfl, rfl, rfl⟩
      simp [GCTaskManager.note_completion,
        GCTaskManager.decrement_busy_workers, hbw, h0,
        busy_and_empty_false hq]
  · by_cases hq : (m.busy_workers - 1 = 0 ∧ m.queue.is_empty = true)
    · refine ⟨{ m with busy_workers := m.busy_workers - 1,
                       completed_tasks := m.completed_tasks + 1,
                       emptied_queue := m.emptied_queue + 1 },
        ?_, fun hc => absurd hc hbw, fun _ => ⟨rfl, rfl⟩, rfl, rfl,
        by rw [if_pos hq], rfl, rfl, rfl, rfl, rfl, rfl, rfl⟩
      simp [GCTaskManager.note_completion,
        GCTaskManager.decrement_busy_workers, hbw, h0, hq.1, hq.2]
    · refine ⟨{ m with busy_workers := m.busy_workers - 1,
                       completed_tasks := m.completed_tasks + 1 },
        ?_, fun hc => absurd hc hbw, fun _ => ⟨rfl, rfl⟩, rfl, rfl,
        by rw [if_neg hq], rfl, rfl, rfl, rfl, rfl, rfl, rfl⟩
      simp [GCTaskManager.note_completion,
        GCTaskManager.decrement_busy_workers, hbw, h0,
        busy_and_empty_false hq]

/-- Claim C8: no queue or manager operation returns an error value; the
failures are the aborting assertions, modelled as none.  Under the
preconditions that dequeue() is only called on a non-empty queue and that
busy_workers is only decremented when positive, the assertion branches of
dequeue and decrement_busy_workers are unreachable: dequeue fails exactly
on the empty queue and otherwise returns a task, and
decrement_busy_workers fails exactly at zero and otherwise returns the
decremented counter. -/
theorem assertion_branches_unreachable (q : GCTaskQueue) (s : Store)
    (ts : List TaskId) (m : GCTaskManager) (h : represents q s ts) :
    (q.dequeue s = none ↔ q.is_empty = true) ∧
    (q.is_empty = false → (q.dequeue s).isSome = true) ∧
    (m.decrement_busy_workers = none ↔ m.busy_workers = 0) ∧
    (0 < m.busy_workers → (m.decrement_busy_workers).isSome = true) := by
  have h2 : q.is_empty = false → (q.dequeue s).isSome = true := by
    intro he
    have hts : ts ≠ [] := by
      intro h0
      have := (represents_is_empty h).mpr h0
      rw [he] at this
      exact Bool.false_ne_true this
    cases ts with
    | nil => exact absurd rfl hts
    | cons t rest =>
      obtain ⟨s', q', hdq, _⟩ := dequeue_represents h
      rw [hdq]
      rfl
  refine ⟨?_, h2, ?_, ?_⟩
  · constructor
    · intro hn
      cases he : q.is_empty with
      | true => rfl
      | false =>
        have := h2 he
        rw [hn] at this
        simp at this
    · intro he
      simp [GCTaskQueue.dequeue, he]
  · by_cases hb : m.busy_workers = 0 <;>
      simp [GCTaskManager.decrement_busy_workers, hb]
  · intro hpos
    have hb : ¬ m.busy_workers = 0 := by omega
    simp [GCTaskManager.decrement_busy_workers, hb]

theorem setTrueBelow_apply (f : Nat → Bool) : ∀ (n i : Nat),
    setTrueBelow f n i = if i < n then true else f i := by
  intro n
  induction n with
  | zero => intro i; simp [setTrueBelow]
  | succ n ih =>
    intro i
    simp only [setTrueBelow]
    by_cases hi : i = n
    · subst hi
      simp
    · rw [if_neg hi, ih i]
      by_cases hlt : i < n
      · rw [if_pos hlt, if_pos (by omega)]
      · rw [if_neg hlt, if_neg (by omega)]

/-- Claim C9: release_all_resources sets resource_flag[i] = true for every
created worker index i, leaves the remaining flag slots and all other
manager state unchanged, and is idempotent; note_release(which) sets
resource_flag[which] = false and leaves every other slot and all other
manager state unchanged. -/
theorem release_resources_spec (m : GCTaskManager) (which : Nat) :
    (∀ i, i < m.created_workers →
      (m.release_all_resources).resource_flag i = true) ∧
    (∀ i, m.created_workers ≤ i →
      (m.release_all_resources).resource_flag i = m.resource_flag i) ∧
    (m.release_all_resources).store = m.store ∧
    (m.release_all_resources).queue = m.queue ∧
    (m.release_all_resources).busy_workers = m.busy_workers ∧
    (m.release_all_resources).blocking_worker = m.blocking_worker ∧
    (m.release_all_resources).delivered_tasks = m.delivered_tasks ∧
    (m.release_all_resources).completed_tasks = m.completed_tasks ∧
    (m.release_all_resources).barriers = m.barriers ∧
    (m.release_all_resources).emptied_queue = m.emptied_queue ∧
    (m.release_all_resources).workers = m.workers ∧
    (m.release_all_resources).created_workers = m.created_workers ∧
    (m.release_all_resources).noop_task = m.noop_task ∧
    m.release_all_resources.release_all_resources = m.release_all_resources ∧
    (m.note_release which).resource_flag which = false ∧
    (∀ j, j ≠ which →
      (m.note_release which).resource_flag j = m.resource_flag j) ∧
    (m.note_release which).store = m.store ∧
    (m.note_release which).queue = m.queue ∧
    (m.note_release which).busy_workers = m.busy_workers ∧
    (m.note_release which).blocking_worker = m.blocking_worker ∧
    (m.note_release which).delivered_tasks = m.delivered_tasks ∧
    (m.note_release which).completed_tasks = m.completed_tasks ∧
    (m.note_release which).barriers = m.barriers ∧
    (m.note_release which).emptied_queue = m.emptied_queue := by
  have hfun : setTrueBelow (setTrueBelow m.resource_flag m.created_workers)
      m.created_workers = setTrueBelow m.resource_flag m.created_workers := by
    funext i
    rw [setTrueBelow_apply, setTrueBelow_apply]
    by_cases hi : i < m.created_workers <;> simp [hi]
  refine ⟨?_, ?_, rfl, rfl, rfl, rfl, rfl, rfl, rfl, rfl, rfl, rfl, rfl, ?_,
    by simp [GCTaskManager.note_release], ?_, rfl, rfl, rfl, rfl, rfl, rfl,
    rfl, rfl⟩
  · intro i hi
    show setTrueBelow m.resource_flag m.created_workers i = true
    rw [setTrueBelow_apply, if_pos hi]
  · intro i hi
    show setTrueBelow m.resource_flag m.created_workers i = m.resource_flag i
    rw [setTrueBelow_apply, if_neg (by omega)]
  · show ({ m with resource_flag :=
        setTrueBelow m.resource_flag m.created_workers } :
          GCTaskManager).release_all_resources = _
    simp only [GCTaskManager.release_all_resources]
    rw [hfun]
  · intro j hj
    simp [GCTaskManager.note_release, hj]

/-- A store with a single ordinary task (id 0) and the noop task (id 1),
both with null links, for the concrete witnesses. -/
def storeM : Store := fun i =>
  if i = 0 then
    { kind := Kind.ordinary_task, affinity := sentinel_worker, gc_id := 7,
      older := none, newer := none }
  else if i = 1 then
    { kind := Kind.noop_task, affinity := sentinel_worker, gc_id := 0,
      older := none, newer := none }
  else GCTask.init Kind.ordinary_task 0

/-- A queue holding exactly task 0, for the concrete witnesses. -/
def queueM : GCTaskQueue :=
  { insert_end := some 0, remove_end := some 0, length := 1 }

/-- A quiescent manager over storeM and queueM, for the witnesses. -/
def managerA : GCTaskManager :=
  { store := storeM, queue := queueM, busy_workers := 0,
    blocking_worker := sentinel_worker, delivered_tasks := 0,
    completed_tasks := 0, barriers := 0, emptied_queue := 0,
    resource_flag := fun _ => false, workers := 2, created_workers := 2,
    noop_task := 1 }

/-- The manager with one busy worker, for the witnesses that decrement. -/
def managerB : GCTaskManager := { managerA with busy_workers := 1 }

theorem get_task_spec_witness :
    managerA.get_task false 0 = none ↔
      (managerA.is_blocked = true ∨ (managerA.queue.is_empty = true ∧
        managerA.resource_flag 0 = false)) :=
  (get_task_spec managerA false 0 [0] (by decide)).1

theorem note_completion_spec_witness :
    (managerB.note_completion 0).isSome = true := by
  obtain ⟨m2, hm2, _⟩ := note_completion_spec managerB 0 (by decide)
  rw [hm2]
  rfl

theorem assertion_branches_unreachable_witness :
    (queueM.dequeue storeM).isSome = true ∧
      (managerB.decrement_busy_workers).isSome = true := by
  have h := assertion_branches_unreachable queueM storeM [0] managerB
    (by decide)
  exact ⟨h.2.1 (by decide), h.2.2.2 (by decide)⟩

theorem release_resources_spec_witness :
    (managerA.release_all_resources).resource_flag 0 = true ∧
      (managerA.note_release 1).resource_flag 1 = false := by
  have h := release_resources_spec managerA 1
  exact ⟨h.1 0 (by decide), h.2.2.2.2.2.2.2.2.2.2.2.2.2.2.1⟩

/-- Claim C3: on a well formed queue, dequeue(affinity) walks from the
remove end (oldest) toward the insert end: if it first finds a task whose
affinity equals the argument it unlinks and returns that task; if it
encounters a barrier task before any matching task it abandons the search
and behaves exactly as the plain dequeue, removing the oldest element; if
the walk ends with neither it also removes the oldest element. -/
theorem dequeue_affinity_correct (q : GCTaskQueue) (s : Store)
    (ts : List TaskId) (aff : Nat) (h : represents q s ts) :
    (∀ pre e post, ts = pre ++ e :: post →
      (∀ x ∈ pre, (s x).is_barrier_task = false ∧ (s x).affinity ≠ aff) →
      (s e).is_barrier_task = false → (s e).affinity = aff →
      ∃ s' q', q.dequeueAffinity s aff = some (e, s', q') ∧
        represents q' s' (pre ++ post) ∧ (s' e).older = none ∧
        (s' e).newer = none)
    ∧ (∀ t0 rest pre bt post, ts = t0 :: rest → ts = pre ++ bt :: post →
        (∀ x ∈ pre, (s x).is_barrier_task = false ∧ (s x).affinity ≠ aff) →
        (s bt).is_barrier_task = true →
        q.dequeueAffinity s aff = q.dequeue s ∧
        ∃ s' q', q.dequeueAffinity s aff = some (t0, s', q') ∧
          represents q' s' rest)
    ∧ (∀ t0 rest, ts = t0 :: rest →
        (∀ x ∈ ts, (s x).is_barrier_task = false ∧ (s x).affinity ≠ aff) →
        q.dequeueAffinity s aff = q.dequeue s ∧
        ∃ s' q', q.dequeueAffinity s aff = some (t0, s', q') ∧
          represents q' s' rest) := by
  have hne : ts ≠ [] → q.is_empty = false := by
    intro hts
    cases hqe : q.is_empty with
    | true => exact absurd ((represents_is_empty h).mp hqe) hts
    | false => rfl
  refine ⟨?_, ?_, ?_⟩
  · intro pre e post hsplit hpre hbe hae
    subst hsplit
    have hts : pre ++ e :: post ≠ [] := by simp
    have hfind : specFindAffinity s aff (pre ++ e :: post) = some e :=
      specFindAffinity_match hpre hbe hae
    obtain ⟨s', q', heq, hrep, hold, hnew, _⟩ := removeTask_represents h
    refine ⟨s', q', ?_, hrep, hold, hnew⟩
    rw [dequeueAffinity_eq_spec h hts, hfind]
    show some (q.removeTask s e) = some (e, s', q')
    rw [heq]
  · intro t0 rest pre bt post hts0 hsplit hpre hbt
    subst hts0
    have hts : t0 :: rest ≠ [] := by simp
    have hfind : specFindAffinity s aff (t0 :: rest) = none := by
      rw [hsplit]
      exact specFindAffinity_barrier_stop hpre hbt
    have heqd : q.dequeueAffinity s aff = q.dequeue s := by
      rw [dequeueAffinity_eq_spec h hts, hfind]
      show q.remove s = q.dequeue s
      simp [GCTaskQueue.dequeue, hne hts]
    obtain ⟨s', q', hdq, hrep, _⟩ := dequeue_represents h
    exact ⟨heqd, s', q', by rw [heqd]; exact hdq, hrep⟩
  · intro t0 rest hts0 hcl
    subst hts0
    have hts : t0 :: rest ≠ [] := by simp
    have hfind : specFindAffinity s aff (t0 :: rest) = none :=
      specFindAffinity_eq_none (fun x hx => (hcl x hx).2)
    have heqd : q.dequeueAffinity s aff = q.dequeue s := by
      rw [dequeueAffinity_eq_spec h hts, hfind]
      show q.remove s = q.dequeue s
      simp [GCTaskQueue.dequeue, hne hts]
    obtain ⟨s', q', hdq, hrep, _⟩ := dequeue_represents h
    exact ⟨heqd, s', q', by rw [heqd]; exact hdq, hrep⟩

/-- The store of spec scenario 6: three ordinary tasks, oldest first
[task 0 with affinity 2, task 1 with affinity 1, task 2 with affinity 2]. -/
def storeA : Store := fun i =>
  if i = 0 then
    { kind := Kind.ordinary_task, affinity := 2, gc_id := 0,
      older := none, newer := some 1 }
  else if i = 1 then
    { kind := Kind.ordinary_task, affinity := 1, gc_id := 0,
      older := some 0, newer := some 2 }
  else if i = 2 then
    { kind := Kind.ordinary_task, affinity := 2, gc_id := 0,
      older := some 1, newer := none }
  else GCTask.init Kind.ordinary_task 0

/-- The three element queue over storeA or storeB: oldest is task 0,
newest is task 2. -/
def queueA : GCTaskQueue :=
  { insert_end := some 2, remove_end := some 0, length := 3 }

theorem dequeue_affinity_correct_witness :
    (queueA.dequeueAffinity storeA 2).map (fun r => r.1) = some 0 := by
  obtain ⟨s', q', heq, _⟩ := (dequeue_affinity_correct queueA storeA [0, 1, 2]
    2 (by decide)).1 [] 0 [1, 2] rfl (by simp) (by decide) (by decide)
  rw [heq]
  rfl

/-- The store of the boundary example of claim C4, oldest first: task 0 is
the barrier task B, task 1 is T_x with affinity 2, task 2 is T_y with
affinity 3. -/
def storeB : Store := fun i =>
  if i = 0 then
    { kind := Kind.wait_for_barrier_task, affinity := sentinel_worker,
      gc_id := 0, older := none, newer := some 1 }
  else if i = 1 then
    { kind := Kind.ordinary_task, affinity := 2, gc_id := 0,
      older := some 0, newer := some 2 }
  else if i = 2 then
    { kind := Kind.ordinary_task, affinity := 3, gc_id := 0,
      older := some 1, newer := none }
  else GCTask.init Kind.ordinary_task 0

/-- Claim C4 (counterexample): on the oldest first queue [B, T_x, T_y]
(task ids 0, 1, 2; T_x has affinity x = 2, T_y has affinity y = 3),
dequeue(affinity = 2) returns the barrier task B (id 0) and not T_y
(id 2), contradicting the claim that T_y is returned. -/
theorem barrier_queue_counterexample :
    represents queueA storeB [0, 1, 2] ∧
    (storeB 0).is_barrier_task = true ∧ (storeB 1).affinity = 2 ∧
    (storeB 2).affinity = 3 ∧
    (queueA.dequeueAffinity storeB 2).map (fun r => r.1) = some 0 ∧
    ¬ ((queueA.dequeueAffinity storeB 2).map (fun r => r.1) = some 2) := by
  decide

/-- Claim C4 (amended): on the oldest first queue [B, T_x, T_y] the barrier
task stops the affinity walk immediately, so dequeue(affinity = x) falls
back to the plain dequeue and returns B itself, the oldest element, leaving
[T_x, T_y] on the queue. -/
theorem barrier_queue_amended :
    represents queueA storeB [0, 1, 2] ∧
    (storeB 0).is_barrier_task = true ∧
    (queueA.dequeueAffinity storeB 2).map (fun r => r.1) = some 0 ∧
    (queueA.dequeueAffinity storeB 2).map (fun r => r.1) =
      (queueA.dequeue storeB).map (fun r => r.1) ∧
    (queueA.dequeueAffinity storeB 2).map
      (fun r => drain 2 r.2.2 r.2.1) = some [1, 2] := by
  decide

/-- Claim C5: every queue operation (enqueue of a task with null links,
enqueue of a whole list, plain dequeue, affinity dequeue) preserves the
structural invariant, stated through the representation predicate; tasks
outside the queue keep their link fields, and unlinked tasks leave with
both link fields null.  The final conjunct derives the claim's clauses
from the representation: the emptiness equivalences, the null links at
both ends, the interior consistency of the doubly linked chain, and that
the walk along the older links from the insert end visits exactly the
elements (so the length matches the reachable count). -/
theorem queue_ops_preserve_invariant :
    (∀ q s ts t, represents q s ts → (s t).older = none →
      (s t).newer = none → t ∉ ts →
      represents (q.enqueue s t).2 (q.enqueue s t).1 (ts ++ [t]) ∧
      ∀ x, x ∉ ts → x ≠ t → (q.enqueue s t).1 x = s x)
    ∧ (∀ q l s ts us, represents q s ts → represents l s us →
        (∀ x ∈ ts, x ∉ us) → us ≠ [] →
        ∃ s2 q2, q.enqueueList s l = some (s2, q2, GCTaskQueue.empty) ∧
          represents q2 s2 (ts ++ us) ∧
          ∀ x, x ∉ ts → x ∉ us → s2 x = s x)
    ∧ (∀ q s t rest, represents q s (t :: rest) →
        ∃ s2 q2, q.dequeue s = some (t, s2, q2) ∧ represents q2 s2 rest ∧
          (s2 t).older = none ∧ (s2 t).newer = none ∧
          ∀ x, x ∉ t :: rest → s2 x = s x)
    ∧ (∀ q s ts aff, represents q s ts → ts ≠ [] →
        ∃ r s2 q2, q.dequeueAffinity s aff = some (r, s2, q2) ∧ r ∈ ts ∧
          represents q2 s2 (ts.erase r) ∧ (s2 r).older = none ∧
          (s2 r).newer = none ∧ ∀ x, x ∉ ts → s2 x = s x)
    ∧ (∀ q s ts, represents q s ts →
        ((q.length = 0 ↔ q.insert_end = none) ∧
          (q.insert_end = none ↔ q.remove_end = none)) ∧
        (∀ r, q.remove_end = some r → (s r).older = none) ∧
        (∀ ie, q.insert_end = some ie → (s ie).newer = none) ∧
        (∀ n ∈ ts, ∀ o, (s n).older = some o → (s o).newer = some n) ∧
        (∀ n ∈ ts, ∀ w, (s n).newer = some w → (s w).older = some n) ∧
        olderWalk s (q.length + 1) q.insert_end = ts.reverse) := by
  refine ⟨?_, ?_, ?_, ?_, ?_⟩
  · intro q s ts t h _ho _hn hm
    exact enqueue_represents h hm
  · intro q l s ts us hq hl hd hus
    exact (enqueueList_represents hq hl hd).2 hus
  · intro q s t rest h
    exact dequeue_represents h
  · intro q s ts aff h hts
    rw [dequeueAffinity_eq_spec h hts]
    cases hf : specFindAffinity s aff ts with
    | some e =>
      obtain ⟨pre, post, hsplit, _⟩ := specFindAffinity_split hf
      subst hsplit
      have hepre : e ∉ pre := by
        have hnd := h.2.2.2.1
        rw [List.nodup_append] at hnd
        exact fun hc => hnd.2.2 hc (by simp)
      obtain ⟨s2, q2, heq, hrep, hold, hnew, hframe⟩ :=
        removeTask_represents h
      refine ⟨e, s2, q2, ?_, by simp, ?_, hold, hnew, ?_⟩
      · show some (q.removeTask s e) = some (e, s2, q2)
        rw [heq]
      · rw [List.erase_append_right _ hepre, List.erase_cons_head]
        exact hrep
      · intro x hx
        exact hframe x hx
    | none =>
      cases ts with
      | nil => exact absurd rfl hts
      | cons t rest =>
        obtain ⟨s2, q2, hdq, hrep, hold, hnew, hframe⟩ := remove_represents h
        refine ⟨t, s2, q2, hdq, by simp, ?_, hold, hnew, hframe⟩
        rw [List.erase_cons_head]
        exact hrep
  · intro q s ts h
    exact represents_invariant h

theorem queue_ops_preserve_invariant_witness :
    (queueA.dequeue storeA).map (fun r => r.1) = some 0 := by
  obtain ⟨s2, q2, hdq, _⟩ := queue_ops_preserve_invariant.2.2.1 queueA storeA
    0 [1, 2] (by decide)
  rw [hdq]
  rfl

/-- Claim C6: splicing a k element list onto an m element queue yields a
queue of m + k elements, leaves the argument list empty, and repeated
plain dequeue afterwards reproduces the FIFO concatenation (the m original
elements oldest first, then the k list elements oldest first); splicing an
empty list changes neither queue. -/
theorem enqueue_list_spec (q l : GCTaskQueue) (s : Store) (ts us : List TaskId)
    (hq : represents q s ts) (hl : represents l s us)
    (hd : ∀ x ∈ ts, x ∉ us) :
    (us = [] → q.enqueueList s l = some (s, q, l)) ∧
    (us ≠ [] → ∃ s2 q2,
      q.enqueueList s l = some (s2, q2, GCTaskQueue.empty) ∧
      q2.length = ts.length + us.length ∧
      drain q2.length q2 s2 = ts ++ us) := by
  obtain ⟨h1, h2⟩ := enqueueList_represents hq hl hd
  refine ⟨h1, ?_⟩
  intro hus
  obtain ⟨s2, q2, heq, hrep, _⟩ := h2 hus
  have hlen : q2.length = ts.length + us.length := by
    have := hrep.2.2.1
    simpa using this
  refine ⟨s2, q2, heq, hlen, ?_⟩
  rw [hlen, show ts.length + us.length = (ts ++ us).length by simp]
  exact drain_represents hrep

/-- Two disjoint two element chains over one store: the queue [0, 1] and
the list [2, 3], for the splice witness. -/
def storeL : Store := fun i =>
  if i = 0 then
    { kind := Kind.ordinary_task, affinity := 0, gc_id := 0,
      older := none, newer := some 1 }
  else if i = 1 then
    { kind := Kind.ordinary_task, affinity := 0, gc_id := 0,
      older := some 0, newer := none }
  else if i = 2 then
    { kind := Kind.ordinary_task, affinity := 0, gc_id := 0,
      older := none, newer := some 3 }
  else if i = 3 then
    { kind := Kind.ordinary_task, affinity := 0, gc_id := 0,
      older := some 2, newer := none }
  else GCTask.init Kind.ordinary_task 0

/-- The queue [0, 1] over storeL. -/
def queueL : GCTaskQueue :=
  { insert_end := some 1, remove_end := some 0, length := 2 }

/-- The list [2, 3] over storeL. -/
def listL : GCTaskQueue :=
  { insert_end := some 3, remove_end := some 2, length := 2 }

theorem enqueue_list_spec_witness :
    (queueL.enqueueList storeL listL).isSome = true := by
  obtain ⟨s2, q2, heq, _⟩ := (enqueue_list_spec queueL listL storeL [0, 1]
    [2, 3] (by decide) (by decide) (by decide)).2 (by simp)
  rw [heq]
  rfl

/-- Claim C7: for a task with null link fields, enqueue followed by plain
dequeue on an otherwise empty queue returns the same task with both link
fields null again, leaves the queue empty, and restores the whole store. -/
theorem enqueue_dequeue_round_trip (s : Store) (t : TaskId)
    (ho : (s t).older = none) (hn : (s t).newer = none) :
    ∃ s2 q2, (GCTaskQueue.empty.enqueue s t).2.dequeue
        (GCTaskQueue.empty.enqueue s t).1 = some (t, s2, q2) ∧
      q2.is_empty = true ∧ q2.length = 0 ∧
      (s2 t).older = none ∧ (s2 t).newer = none ∧ ∀ x, s2 x = s x := by
  have hkey : (GCTaskQueue.empty.enqueue s t).2.dequeue
      (GCTaskQueue.empty.enqueue s t).1 = some (t,
        setNewer (setOlder (setNewer s t none) t none) t none,
        { insert_end := none, remove_end := none, length := 0 }) := by
    simp [GCTaskQueue.enqueue, GCTaskQueue.dequeue, GCTaskQueue.remove,
      GCTaskQueue.is_empty, GCTaskQueue.empty, setOlder_apply_self,
      setNewer_apply_self]
  refine ⟨setNewer (setOlder (setNewer s t none) t none) t none,
    { insert_end := none, remove_end := none, length := 0 },
    hkey, rfl, rfl, ?_, ?_, ?_⟩
  · simp [setNewer_apply_self, setOlder_apply_self]
  · simp [setNewer_apply_self, setOlder_apply_self]
  · have hrec : ∀ (u : GCTask), u.older = none → u.newer = none →
        ({ u with older := none, newer := none } : GCTask) = u := by
      intro u huo hun
      cases u
      simp only at huo hun
      rw [huo, hun]
    intro x
    by_cases hx : x = t
    · subst hx
      have hstep : setNewer (setOlder (setNewer s x none) x none) x none x =
          { s x with older := none, newer := none } := by
        rw [setNewer_apply_self, setOlder_apply_self, setNewer_apply_self]
      rw [hstep]
      exact hrec (s x) ho hn
    · rw [setNewer_apply_ne _ _ hx, setOlder_apply_ne _ _ hx,
        setNewer_apply_ne _ _ hx]

theorem enqueue_dequeue_round_trip_witness :
    ((GCTaskQueue.empty.enqueue storeM 0).2.dequeue
      (GCTaskQueue.empty.enqueue storeM 0).1).isSome = true := by
  obtain ⟨s2, q2, hdq, _⟩ := enqueue_dequeue_round_trip storeM 0 rfl rfl
  rw [hdq]
  rfl

/-- Claim C10: on a non-empty queue containing no task whose affinity
equals w, dequeue(w) coincides with the plain dequeue (same task, same
resulting store and queue); in particular a queue of tasks built by
GCTask::initialize, whose affinity is the sentinel worker, is dispatched
in pure FIFO order under affinity dequeue with any real worker index. -/
theorem dequeue_affinity_no_match (q : GCTaskQueue) (s : Store)
    (ts : List TaskId) (w : Nat) (h : represents q s ts) (hts : ts ≠ []) :
    ((∀ x ∈ ts, (s x).affinity ≠ w) →
      q.dequeueAffinity s w = q.dequeue s)
    ∧ ((∀ x ∈ ts, ∃ k g, s x = GCTask.init k g) → w ≠ sentinel_worker →
      q.dequeueAffinity s w = q.dequeue s) := by
  have hne : q.is_empty = false := by
    cases hqe : q.is_empty with
    | true => exact absurd ((represents_is_empty h).mp hqe) hts
    | false => rfl
  have hmain : (∀ x ∈ ts, (s x).affinity ≠ w) →
      q.dequeueAffinity s w = q.dequeue s := by
    intro hno
    rw [dequeueAffinity_eq_spec h hts, specFindAffinity_eq_none hno]
    show q.remove s = q.dequeue s
    simp [GCTaskQueue.dequeue, hne]
  refine ⟨hmain, ?_⟩
  intro hinit hw
  refine hmain ?_
  intro x hx
  obtain ⟨k, g, hkg⟩ := hinit x hx
  rw [hkg]
  show sentinel_worker ≠ w
  exact fun he => hw he.symm

/-- A store where every task is freshly initialized (sentinel affinity,
null links), for the default affinity witness. -/
def storeI : Store := fun i => GCTask.init Kind.ordinary_task i

theorem dequeue_affinity_no_match_witness :
    queueM.dequeueAffinity storeI 0 = queueM.dequeue storeI := by
  refine (dequeue_affinity_no_match queueM storeI [0] 0 (by decide)
    (by simp)).2 ?_ (by decide)
  intro x _
  exact ⟨Kind.ordinary_task, x, rfl⟩

end GCTaskModel
